import Mathlib

/-!
Verification of the compositional-data geometry module of this repository
(center of mass, Euclidean distance, simplex basis transform, Aitchison
log-ratio transforms, multiplicative zero replacement, and the tight-simplex
fitting procedure).  The geometry implementation itself is not shipped with
the sources here, only its test suite; every operation below is therefore
modelled from the specification, faithful to its words, and the test suite's
assertions are used to pin down the conventions (index normalisation, the
identity rotation of the fitted simplex, the shape of the error taxonomy).
-/

/-- Modelled from the spec: the error taxonomy of the geometry module.
`typeError` is the InvalidArgument kind, `indexError` the OutOfRange kind,
`valueError` the ShapeMismatch kind (named after the Python exception classes
the tests assert). -/
inductive GeomErr where
  | typeError
  | indexError
  | valueError
deriving DecidableEq

/-- Modelled from the spec: the weight-index argument of
`center_of_mass_one_array`, which may be an integer or a non-numeric value
(the tests pass a string). -/
inductive WIdx where
  | idx (i : ℤ)
  | nonNumeric

/-- Modelled from the spec: the weights argument of
`center_of_mass_two_array`, either numeric weight data or a non-numeric
value. -/
inductive Wgts where
  | nums (w : List ℚ)
  | nonNumeric

/-- Number of columns of a row-major matrix, read off the first row. -/
def ncols (m : List (List ℚ)) : ℕ := (m.headD []).length

/-- Modelled from the spec: `center_of_mass_two_array` computes
`sum(weight_i * coord_i) / sum(weight_i)` elementwise across the coordinate
dimensions; non-numeric weight data fails with the InvalidArgument kind and
coordinate/weight arrays that cannot be aligned fail with the ShapeMismatch
kind.  (The geometry source is absent from the sources here.) -/
def center_of_mass_two_array (coords : List (List ℚ)) (w : Wgts) :
    Except GeomErr (List ℚ) :=
  match w with
  | .nonNumeric => .error .typeError
  | .nums ws =>
      if ws.length = coords.length then
        .ok ((List.range (ncols coords)).map fun t =>
          (List.zipWith (fun wi row => wi * row.getD t 0) ws coords).sum / ws.sum)
      else .error .valueError

/-- Modelled from the spec: normalisation of a possibly negative reference
index, `index = if index < 0 then D + index else index`. -/
def refIndex (D : ℕ) (r : ℤ) : ℕ := (if r < 0 then (D : ℤ) + r else r).toNat

/-- A (possibly negative) index is valid for D columns when its normalised
value lands inside `[0, D)`. -/
def validIdx (D : ℕ) (i : ℤ) : Prop :=
  0 ≤ (if i < 0 then (D : ℤ) + i else i) ∧ (if i < 0 then (D : ℤ) + i else i) < (D : ℤ)

instance (D : ℕ) (i : ℤ) : Decidable (validIdx D i) :=
  inferInstanceAs (Decidable (_ ∧ _))

/-- Modelled from the spec: `center_of_mass_one_array` treats the column at
the weight index as weights and the remaining columns as coordinates, then
delegates to the two-array computation.  A non-numeric weight index fails
with the InvalidArgument kind; a weight index outside the available columns
(after normalising a negative index from the end) fails with the OutOfRange
kind.  (The geometry source is absent from the sources here.) -/
def center_of_mass_one_array (m : List (List ℚ)) (w : WIdx) :
    Except GeomErr (List ℚ) :=
  match w with
  | .nonNumeric => .error .typeError
  | .idx i =>
      if validIdx (ncols m) i then
        center_of_mass_two_array (m.map fun row => row.eraseIdx (refIndex (ncols m) i))
          (.nums (m.map fun row => row.getD (refIndex (ncols m) i) 0))
      else .error .indexError

noncomputable section

/-- Modelled from the spec: Euclidean distance between two points,
`sqrt(sum((a-b)^2))` across the coordinate axis. -/
def distance {n : ℕ} (a b : Fin n → ℝ) : ℝ := Real.sqrt (∑ i, (a i - b i) ^ 2)

/-- Normalising coefficient of the k-th Helmert contrast vector,
`1 / sqrt((k+1)(k+2))` (0-indexed k). -/
def hc (k : ℕ) : ℝ := 1 / Real.sqrt (((k : ℝ) + 1) * ((k : ℝ) + 2))

/-- Entry (i, k) of the Helmert-style contrast matrix: column k has k+1
leading entries `hc k`, then one entry `-(k+1) * hc k`, then zeros.  Each
column is a unit vector, columns are orthogonal, and every column sums to
zero, so the columns form an orthonormal basis of the zero-sum hyperplane. -/
def hmat (i k : ℕ) : ℝ :=
  if i < k + 1 then hc k else if i = k + 1 then -(((k : ℝ) + 1) * hc k) else 0

/-- Modelled from the spec: the `SimplexTransform` object for ambient
dimension `d + 1` is a fixed `(d+1) x d` matrix whose columns are an
orthonormal basis of the hyperplane of zero-sum vectors, built by a
Helmert-style contrast construction (the construction the spec names as the
sanctioned choice; the geometry source is absent from the sources here). -/
def SimplexTransform (d : ℕ) : Matrix (Fin (d + 1)) (Fin d) ℝ :=
  Matrix.of fun i k => hmat i.val k.val

/-- Applying the simplex transform to a point, `x @ transform` in the tests:
row vector times matrix. -/
def applyST {d : ℕ} (x : Fin (d + 1) → ℝ) : Fin d → ℝ :=
  fun k => ∑ i, x i * SimplexTransform d i k

/-- The i-th canonical unit basis vector. -/
def stdBasis {n : ℕ} (i : Fin n) : Fin n → ℝ := fun t => if t = i then 1 else 0

/-- Modelled from the spec: the additive log-ratio transform at reference
component `ref`: for each component other than `ref`, in order,
`log(x_i / x_ref)`. -/
def alr {d : ℕ} (x : Fin (d + 1) → ℝ) (ref : Fin (d + 1)) : Fin d → ℝ :=
  fun k => Real.log (x (ref.succAbove k) / x ref)

/-- The unnormalised preimage used by `alr_inv`: exponentiate the entries and
insert the value 1 back at the reference position. -/
def alrInvRaw {d : ℕ} (y : Fin d → ℝ) (ref : Fin (d + 1)) : Fin (d + 1) → ℝ :=
  Fin.insertNth ref 1 fun k => Real.exp (y k)

/-- Modelled from the spec: the inverse additive log-ratio transform:
exponentiate, reinsert the reference component as 1, and renormalise so the
result sums to 1. -/
def alr_inv {d : ℕ} (y : Fin d → ℝ) (ref : Fin (d + 1)) : Fin (d + 1) → ℝ :=
  fun j => alrInvRaw y ref j / ∑ t, alrInvRaw y ref t

/-- Modelled from the spec: the centered log-ratio transform,
`log(x_i) - mean_j(log(x_j))`. -/
def clr {d : ℕ} (x : Fin (d + 1) → ℝ) : Fin (d + 1) → ℝ :=
  fun j => Real.log (x j) - (∑ t, Real.log (x t)) / ((d : ℝ) + 1)

/-- Modelled from the spec: the inverse centered log-ratio transform,
`exp(y_i)` renormalised to sum 1. -/
def clr_inv {d : ℕ} (y : Fin (d + 1) → ℝ) : Fin (d + 1) → ℝ :=
  fun j => Real.exp (y j) / ∑ t, Real.exp (y t)

/-- Number of zero components of a vector. -/
def nZeros {d : ℕ} (x : Fin d → ℝ) : ℕ :=
  (Finset.univ.filter fun i => x i = 0).card

/-- Modelled from the spec: the conventional default pseudo-count for
`multiplicative_replacement`, on the order of `1 / D^2` for dimension D. -/
def defaultDelta (D : ℕ) : ℝ := 1 / (D : ℝ) ^ 2

/-- Modelled from the spec: multiplicative zero replacement: each zero
component becomes the pseudo-count δ and each non-zero component is rescaled
by `1 - n_zeros * δ`, so the unit sum is preserved. -/
def multiplicative_replacement {d : ℕ} (x : Fin d → ℝ) (δ : ℝ) : Fin d → ℝ :=
  fun i => if x i = 0 then δ else x i * (1 - (nZeros x : ℝ) * δ)

/-- Componentwise mean (centre of gravity) of a cloud of n + 1 points. -/
def centroid {n d : ℕ} (x : Fin (n + 1) → Fin d → ℝ) : Fin d → ℝ :=
  fun j => (∑ i, x i j) / ((n : ℝ) + 1)

/-- Largest componentwise deviation of the centroid above a cloud point,
`max over points p and components j of (centroid_j - p_j)`; the smallest
uniform pull of the vertices away from the centroid that keeps every point's
barycentric coordinates non-negative is `(d+1)` times this. -/
def maxShift {n d : ℕ} (x : Fin (n + 1) → Fin (d + 1) → ℝ) : ℝ :=
  Finset.univ.sup' Finset.univ_nonempty
    fun p : Fin (n + 1) × Fin (d + 1) => centroid x p.2 - x p.1 p.2

/-- The tight scale factor of the fitted simplex, `(d+1) * maxShift`. -/
def simplexScale {n d : ℕ} (x : Fin (n + 1) → Fin (d + 1) → ℝ) : ℝ :=
  ((d : ℝ) + 1) * maxShift x

/-- Modelled from the spec: `tight_simplex` returns the `(d+1) x (d+1)`
vertex matrix of the smallest translate-plus-uniform-scale copy of the
regular reference simplex, centred at the cloud centroid, that encloses the
cloud: vertex i is `centroid + scale * (e_i - (1/(d+1)) * ones)`.  The test
suite asserts that the pairwise vertex differences align exactly with the
reference directions `e_i - e_j`, which fixes the rotation to the identity;
the scale is the smallest one making every barycentric coordinate
non-negative ("tight").  (The geometry source is absent from the sources
here; the spec leaves the numerical search open and pins only these
postconditions.) -/
def tight_simplex {n d : ℕ} (x : Fin (n + 1) → Fin (d + 1) → ℝ) :
    Matrix (Fin (d + 1)) (Fin (d + 1)) ℝ :=
  Matrix.of fun i j =>
    centroid x j + simplexScale x * ((if i = j then 1 else 0) - 1 / ((d : ℝ) + 1))

end

/-- The total mass of the unnormalised alr preimage is one plus the sum of
the exponentials, hence positive. -/
theorem alrInvRaw_sum {d : ℕ} (y : Fin d → ℝ) (ref : Fin (d + 1)) :
    ∑ t, alrInvRaw y ref t = 1 + ∑ k, Real.exp (y k) := by
  rw [Fin.sum_univ_succAbove (alrInvRaw y ref) ref]
  simp [alrInvRaw]

/-- Round trip of the additive log-ratio transform at any reference
position. -/
theorem alr_of_alr_inv {d : ℕ} (y : Fin d → ℝ) (ref : Fin (d + 1)) :
    alr (alr_inv y ref) ref = y := by
  have hS0 : (∑ t, alrInvRaw y ref t) ≠ 0 := by
    rw [alrInvRaw_sum]
    positivity
  funext k
  simp only [alr, alr_inv, alrInvRaw, Fin.insertNth_apply_same,
    Fin.insertNth_apply_succAbove]
  have hdiv : Real.exp (y k) / (∑ t, alrInvRaw y ref t)
      / ((1 : ℝ) / ∑ t, alrInvRaw y ref t) = Real.exp (y k) := by
    field_simp
  rw [show (Fin.insertNth ref (1 : ℝ) fun k => Real.exp (y k))
        = alrInvRaw y ref from rfl] at *
  rw [hdiv, Real.log_exp]

/-- Claim C6: for every real input vector and every valid reference index in
the range `[-D, D-1]` (negative values counting from the end), `alr_inv`
followed by `alr` at the same reference index returns the input vector
exactly. -/
theorem alr_alr_inv_roundtrip (d : ℕ) (x : Fin d → ℝ) (r : ℤ)
    (h1 : -((d : ℤ) + 1) ≤ r) (h2 : r < (d : ℤ) + 1) :
    ∃ h : refIndex (d + 1) r < d + 1,
      alr (alr_inv x ⟨refIndex (d + 1) r, h⟩) ⟨refIndex (d + 1) r, h⟩ = x := by
  have hlt : refIndex (d + 1) r < d + 1 := by
    rw [refIndex]
    split <;> omega
  exact ⟨hlt, alr_of_alr_inv x _⟩

/-- Witness for C6: the round trip at dimension 3 with reference index -1
(the last component). -/
theorem alr_alr_inv_roundtrip_witness :
    ∃ h : refIndex 3 (-1) < 3,
      alr (alr_inv (fun _ : Fin 2 => (0 : ℝ)) ⟨refIndex 3 (-1), h⟩)
        ⟨refIndex 3 (-1), h⟩ = fun _ : Fin 2 => (0 : ℝ) :=
  alr_alr_inv_roundtrip 2 (fun _ => 0) (-1) (by norm_num) (by norm_num)

/-- Claim C7: for a strictly positive composition summing to 1, the centered
log-ratio transform round-trips through its inverse, and its image lies on
the zero-sum hyperplane. -/
theorem clr_roundtrip_and_hyperplane (d : ℕ) (z : Fin (d + 1) → ℝ)
    (hpos : ∀ j, 0 < z j) (hsum : ∑ j, z j = 1) :
    clr_inv (clr z) = z ∧ ∑ j, clr z j = 0 := by
  have hd1 : ((d : ℝ) + 1) ≠ 0 := by positivity
  have hexp : ∀ t, Real.exp (clr z t)
      = z t * Real.exp (-((∑ u, Real.log (z u)) / ((d : ℝ) + 1))) := by
    intro t
    rw [clr, sub_eq_add_neg, Real.exp_add, Real.exp_log (hpos t)]
  constructor
  · funext j
    rw [clr_inv, hexp j]
    rw [Finset.sum_congr rfl fun t _ => hexp t, ← Finset.sum_mul, hsum, one_mul]
    rw [mul_div_assoc, div_self (Real.exp_ne_zero _), mul_one]
  · simp only [clr]
    rw [Finset.sum_sub_distrib, Finset.sum_const, Finset.card_univ,
      Fintype.card_fin, nsmul_eq_mul]
    push_cast
    field_simp

/-- Witness for C7: the uniform two-component composition. -/
theorem clr_roundtrip_witness :
    clr_inv (clr fun _ : Fin 2 => (1 / 2 : ℝ)) = (fun _ : Fin 2 => (1 / 2 : ℝ)) ∧
      ∑ j, clr (fun _ : Fin 2 => (1 / 2 : ℝ)) j = 0 :=
  clr_roundtrip_and_hyperplane 1 _ (fun _ => by norm_num)
    (by rw [Fin.sum_univ_two]; norm_num)

/-- Claim C2: the componentwise mean of the vertices returned by
`tight_simplex` equals the componentwise mean of the input cloud, for every
input cloud. -/
theorem tight_simplex_centroid_eq (n d : ℕ) (x : Fin (n + 1) → Fin (d + 1) → ℝ)
    (j : Fin (d + 1)) :
    (∑ i, tight_simplex x i j) / ((d : ℝ) + 1) = centroid x j := by
  have hd1 : ((d : ℝ) + 1) ≠ 0 := by positivity
  simp only [tight_simplex, Matrix.of_apply]
  rw [Finset.sum_add_distrib, Finset.sum_const, Finset.card_univ, Fintype.card_fin,
    ← Finset.mul_sum, Finset.sum_sub_distrib,
    Finset.sum_ite_eq' Finset.univ j fun _ => (1 : ℝ)]
  rw [if_pos (Finset.mem_univ j), Finset.sum_const, Finset.card_univ, Fintype.card_fin,
    nsmul_eq_mul, nsmul_eq_mul]
  push_cast
  field_simp

/-- Every componentwise deviation of the centroid above a cloud point is at
most the maximal one. -/
theorem centroid_sub_le_maxShift {n d : ℕ} (x : Fin (n + 1) → Fin (d + 1) → ℝ)
    (m : Fin (n + 1)) (j : Fin (d + 1)) :
    centroid x j - x m j ≤ maxShift x :=
  Finset.le_sup' (fun p : Fin (n + 1) × Fin (d + 1) => centroid x p.2 - x p.1 p.2)
    (Finset.mem_univ (m, j))

/-- Along any fixed component, the deviations of the centroid above the cloud
points sum to zero. -/
theorem sum_centroid_sub {n d : ℕ} (x : Fin (n + 1) → Fin d → ℝ) (j : Fin d) :
    ∑ i, (centroid x j - x i j) = 0 := by
  rw [Finset.sum_sub_distrib, Finset.sum_const, Finset.card_univ, Fintype.card_fin,
    nsmul_eq_mul, centroid]
  push_cast
  field_simp

/-- The maximal centroid deviation is non-negative: the centroid cannot lie
strictly below the whole cloud in any component. -/
theorem maxShift_nonneg {n d : ℕ} (x : Fin (n + 1) → Fin (d + 1) → ℝ) :
    0 ≤ maxShift x := by
  by_contra h
  push_neg at h
  have hlt : ∑ i, (centroid x 0 - x i 0) < ∑ _i : Fin (n + 1), (0 : ℝ) := by
    apply Finset.sum_lt_sum_of_nonempty Finset.univ_nonempty
    intro i _
    exact lt_of_le_of_lt (centroid_sub_le_maxShift x i 0) h
  rw [sum_centroid_sub, Finset.sum_const, smul_zero] at hlt
  exact lt_irrefl 0 hlt

/-- When the maximal centroid deviation vanishes, the whole cloud coincides
with its centroid. -/
theorem eq_centroid_of_maxShift_eq_zero {n d : ℕ}
    (x : Fin (n + 1) → Fin (d + 1) → ℝ) (h0 : maxShift x = 0)
    (m : Fin (n + 1)) (j : Fin (d + 1)) : x m j = centroid x j := by
  have hle : ∀ i ∈ Finset.univ, centroid x j - x i j ≤ 0 := fun i _ =>
    h0 ▸ centroid_sub_le_maxShift x i j
  have := (Finset.sum_eq_zero_iff_of_nonpos hle).mp (sum_centroid_sub x j) m
    (Finset.mem_univ m)
  linarith

/-- For a cloud of compositional points the centroid components sum to 1. -/
theorem sum_centroid_eq_one {n d : ℕ} (x : Fin (n + 1) → Fin d → ℝ)
    (hrows : ∀ i, ∑ j, x i j = 1) : ∑ j, centroid x j = 1 := by
  simp only [centroid]
  rw [← Finset.sum_div, Finset.sum_comm, Finset.sum_congr rfl fun i _ => hrows i,
    Finset.sum_const, Finset.card_univ, Fintype.card_fin, nsmul_eq_mul, mul_one]
  push_cast
  field_simp

/-- Claim C3: for a cloud of compositional points, every vertex returned by
`tight_simplex` sums to 1, and there is a single common edge length l with
every pairwise vertex difference equal to l times the reference unit-simplex
direction `(e_i - e_j) / sqrt 2`. -/
theorem tight_simplex_vertices_regular (n d : ℕ)
    (x : Fin (n + 1) → Fin (d + 1) → ℝ) (hrows : ∀ i, ∑ j, x i j = 1) :
    (∀ i, ∑ j, tight_simplex x i j = 1) ∧
      ∃ l, 0 ≤ l ∧ ∀ i j t : Fin (d + 1),
        tight_simplex x i t - tight_simplex x j t
          = l * (((if t = i then 1 else 0) - if t = j then 1 else 0)
              / Real.sqrt 2) := by
  have hd1 : ((d : ℝ) + 1) ≠ 0 := by positivity
  constructor
  · intro i
    simp only [tight_simplex, Matrix.of_apply]
    rw [Finset.sum_add_distrib, sum_centroid_eq_one x hrows, ← Finset.mul_sum,
      Finset.sum_sub_distrib, Finset.sum_ite_eq Finset.univ i fun _ => (1 : ℝ),
      if_pos (Finset.mem_univ i), Finset.sum_const, Finset.card_univ,
      Fintype.card_fin, nsmul_eq_mul]
    push_cast
    field_simp
  · refine ⟨simplexScale x * Real.sqrt 2, ?_, ?_⟩
    · have h1 : 0 ≤ simplexScale x := by
        have := maxShift_nonneg x
        rw [simplexScale]
        positivity
      have h2 : 0 ≤ Real.sqrt 2 := Real.sqrt_nonneg 2
      positivity
    · intro i j t
      have h2 : Real.sqrt 2 ≠ 0 := by
        have : (0 : ℝ) < Real.sqrt 2 := Real.sqrt_pos.mpr (by norm_num)
        exact ne_of_gt this
      simp only [tight_simplex, Matrix.of_apply]
      have hflip : ∀ a b : Fin (d + 1),
          (if a = b then (1 : ℝ) else 0) = if b = a then 1 else 0 := by
        intro a b
        by_cases hab : a = b
        · simp [hab]
        · simp [hab, Ne.symm hab]
      rw [hflip i t, hflip j t]
      generalize (if t = i then (1 : ℝ) else 0) = b1
      generalize (if t = j then (1 : ℝ) else 0) = b2
      field_simp
      ring

/-- Witness for C3: the one-point cloud at the uniform two-component
composition. -/
theorem tight_simplex_vertices_regular_witness :
    (∀ i, ∑ j, tight_simplex (fun _ : Fin 1 => fun _ : Fin 2 => (1 / 2 : ℝ)) i j = 1) ∧
      ∃ l, 0 ≤ l ∧ ∀ i j t : Fin 2,
        tight_simplex (fun _ : Fin 1 => fun _ : Fin 2 => (1 / 2 : ℝ)) i t
            - tight_simplex (fun _ : Fin 1 => fun _ : Fin 2 => (1 / 2 : ℝ)) j t
          = l * (((if t = i then 1 else 0) - if t = j then 1 else 0)
              / Real.sqrt 2) :=
  tight_simplex_vertices_regular 0 1 (fun _ => fun _ => (1 / 2 : ℝ))
    (fun _ => by rw [Fin.sum_univ_two]; norm_num)

/-- Claim C1: every point of a compositional cloud has barycentric
coordinates with respect to the `tight_simplex` vertices that sum to 1, are
entrywise non-negative, and reconstruct the point as `coords . vertices`. -/
theorem tight_simplex_barycentric_nonneg (n d : ℕ)
    (x : Fin (n + 1) → Fin (d + 1) → ℝ) (hrows : ∀ i, ∑ j, x i j = 1)
    (m : Fin (n + 1)) :
    ∃ coords : Fin (d + 1) → ℝ, (∑ i, coords i = 1) ∧ (∀ i, 0 ≤ coords i) ∧
      ∀ j, x m j = ∑ i, coords i * tight_simplex x i j := by
  have hd1 : ((d : ℝ) + 1) ≠ 0 := by positivity
  rcases eq_or_lt_of_le (maxShift_nonneg x) with h0 | hpos
  · refine ⟨fun _ => 1 / ((d : ℝ) + 1), ?_, ?_, ?_⟩
    · rw [Finset.sum_const, Finset.card_univ, Fintype.card_fin, nsmul_eq_mul]
      push_cast
      field_simp
    · intro i
      positivity
    · intro j
      rw [eq_centroid_of_maxShift_eq_zero x h0.symm m j]
      simp only [tight_simplex, Matrix.of_apply, simplexScale, ← h0, mul_zero,
        zero_mul, add_zero]
      rw [← Finset.sum_mul, Finset.sum_const, Finset.card_univ, Fintype.card_fin,
        nsmul_eq_mul]
      push_cast
      field_simp
  · have hms : (0 : ℝ) < maxShift x := hpos
    have hs0 : (0 : ℝ) < simplexScale x := by
      rw [simplexScale]
      positivity
    have hsne : simplexScale x ≠ 0 := ne_of_gt hs0
    set s := simplexScale x with hs
    refine ⟨fun i => (x m i - centroid x i) / s + 1 / ((d : ℝ) + 1), ?_, ?_, ?_⟩
    · rw [Finset.sum_add_distrib, ← Finset.sum_div, Finset.sum_sub_distrib,
        hrows m, sum_centroid_eq_one x hrows, sub_self, zero_div, zero_add,
        Finset.sum_const, Finset.card_univ, Fintype.card_fin, nsmul_eq_mul]
      push_cast
      field_simp
    · intro i
      have h1 : centroid x i - x m i ≤ maxShift x := centroid_sub_le_maxShift x m i
      have hmax : maxShift x = s / ((d : ℝ) + 1) := by
        rw [hs, simplexScale]
        field_simp
      have key : -(s / ((d : ℝ) + 1)) ≤ x m i - centroid x i := by
        rw [hmax] at h1
        linarith
      have hdiv : -(s / ((d : ℝ) + 1)) / s ≤ (x m i - centroid x i) / s :=
        (div_le_div_iff_of_pos_right hs0).mpr key
      have heq : -(s / ((d : ℝ) + 1)) / s = -(1 / ((d : ℝ) + 1)) := by
        field_simp
        ring
      rw [heq] at hdiv
      linarith
    · intro j
      have hsum1 : ∑ i, ((x m i - centroid x i) / s + 1 / ((d : ℝ) + 1)) = 1 := by
        rw [Finset.sum_add_distrib, ← Finset.sum_div, Finset.sum_sub_distrib,
          hrows m, sum_centroid_eq_one x hrows, sub_self, zero_div, zero_add,
          Finset.sum_const, Finset.card_univ, Fintype.card_fin, nsmul_eq_mul]
        push_cast
        field_simp
      have expand : ∀ i : Fin (d + 1),
          ((x m i - centroid x i) / s + 1 / ((d : ℝ) + 1)) * tight_simplex x i j
            = ((x m i - centroid x i) / s + 1 / ((d : ℝ) + 1)) * centroid x j
              + s * (if i = j then ((x m i - centroid x i) / s + 1 / ((d : ℝ) + 1)) else 0)
              - (s / ((d : ℝ) + 1))
                  * ((x m i - centroid x i) / s + 1 / ((d : ℝ) + 1)) := by
        intro i
        by_cases hij : i = j
        · simp only [tight_simplex, Matrix.of_apply, if_pos hij]
          ring
        · simp only [tight_simplex, Matrix.of_apply, if_neg hij]
          ring
      rw [Finset.sum_congr rfl fun i _ => expand i]
      rw [Finset.sum_sub_distrib, Finset.sum_add_distrib, ← Finset.sum_mul, hsum1,
        one_mul, ← Finset.mul_sum,
        Finset.sum_ite_eq' Finset.univ j
          fun i => (x m i - centroid x i) / s + 1 / ((d : ℝ) + 1),
        if_pos (Finset.mem_univ j), ← Finset.mul_sum, hsum1, mul_one]
      field_simp
      ring

/-- Witness for C1: the first point of a one-point cloud at the uniform
two-component composition. -/
theorem tight_simplex_barycentric_nonneg_witness :
    ∃ coords : Fin 2 → ℝ, (∑ i, coords i = 1) ∧ (∀ i, 0 ≤ coords i) ∧
      ∀ j, (fun _ : Fin 1 => fun _ : Fin 2 => (1 / 2 : ℝ)) 0 j
        = ∑ i, coords i
            * tight_simplex (fun _ : Fin 1 => fun _ : Fin 2 => (1 / 2 : ℝ)) i j :=
  tight_simplex_barycentric_nonneg 0 1 (fun _ => fun _ => (1 / 2 : ℝ))
    (fun _ => by rw [Fin.sum_univ_two]; norm_num) 0

/-- Summing a Kronecker delta against a Kronecker delta. -/
theorem sum_delta_mul_delta {D : ℕ} (i j : Fin D) :
    ∑ k, (if i = k then (1 : ℝ) else 0) * (if k = j then 1 else 0)
      = if i = j then 1 else 0 := by
  simp only [ite_mul, one_mul, zero_mul]
  rw [Finset.sum_ite_eq Finset.univ i fun k => if k = j then (1 : ℝ) else 0]
  simp

/-- Summing a Kronecker delta against a function picks out one value. -/
theorem sum_delta_mul {D : ℕ} (i : Fin D) (g : Fin D → ℝ) :
    ∑ k, (if i = k then (1 : ℝ) else 0) * g k = g i := by
  simp only [ite_mul, one_mul, zero_mul]
  rw [Finset.sum_ite_eq Finset.univ i g]
  simp

/-- Summing a function against a Kronecker delta picks out one value. -/
theorem sum_mul_delta {D : ℕ} (j : Fin D) (g : Fin D → ℝ) :
    ∑ k, g k * (if k = j then (1 : ℝ) else 0) = g j := by
  simp only [mul_ite, mul_one, mul_zero]
  rw [Finset.sum_ite_eq' Finset.univ j g]
  simp

/-- Claim C10 (amended): for a compositional cloud that is not entirely
concentrated at its own centroid, the vertex matrix returned by
`tight_simplex` is invertible. -/
theorem tight_simplex_nonsingular (n d : ℕ)
    (x : Fin (n + 1) → Fin (d + 1) → ℝ) (hrows : ∀ i, ∑ j, x i j = 1)
    (hnd : ∃ m j, x m j ≠ centroid x j) :
    IsUnit (tight_simplex x) := by
  have hd1 : ((d : ℝ) + 1) ≠ 0 := by positivity
  have hms : (0 : ℝ) < maxShift x := by
    rcases eq_or_lt_of_le (maxShift_nonneg x) with h0 | h
    · obtain ⟨m, j, hmj⟩ := hnd
      exact absurd (eq_centroid_of_maxShift_eq_zero x h0.symm m j) hmj
    · exact h
  have hs0 : (0 : ℝ) < simplexScale x := by
    rw [simplexScale]
    positivity
  have hsne : simplexScale x ≠ 0 := ne_of_gt hs0
  set s := simplexScale x with hsdef
  set w : Fin (d + 1) → ℝ := fun t => centroid x t - s / ((d : ℝ) + 1) with hwdef
  have hwsum : ∑ t, w t = 1 - s := by
    rw [hwdef]
    rw [Finset.sum_sub_distrib, sum_centroid_eq_one x hrows, Finset.sum_const,
      Finset.card_univ, Fintype.card_fin, nsmul_eq_mul]
    push_cast
    field_simp
  have hentry : ∀ i k : Fin (d + 1),
      tight_simplex x i k = s * (if i = k then 1 else 0) + w k := by
    intro i k
    simp only [tight_simplex, Matrix.of_apply, hwdef]
    ring
  set M : Matrix (Fin (d + 1)) (Fin (d + 1)) ℝ :=
    Matrix.of fun k j => 1 / s * ((if k = j then 1 else 0) - w j) with hMdef
  have hVM : tight_simplex x * M = 1 := by
    ext i j
    rw [Matrix.mul_apply, Matrix.one_apply]
    have hg : ∀ k, tight_simplex x i k * M k j
        = 1 / s * (s * ((if i = k then (1 : ℝ) else 0) * (if k = j then 1 else 0))
            - s * ((if i = k then (1 : ℝ) else 0) * w j)
            + w k * (if k = j then (1 : ℝ) else 0)
            - w k * w j) := by
      intro k
      rw [hentry i k, hMdef]
      simp only [Matrix.of_apply]
      ring
    rw [Finset.sum_congr rfl fun k _ => hg k, ← Finset.mul_sum,
      Finset.sum_sub_distrib, Finset.sum_add_distrib, Finset.sum_sub_distrib,
      ← Finset.mul_sum, ← Finset.mul_sum, sum_delta_mul_delta i j,
      sum_delta_mul i fun _ => w j, sum_mul_delta j w, ← Finset.sum_mul, hwsum]
    generalize (if i = j then (1 : ℝ) else 0) = b
    field_simp
    ring
  have hMV : M * tight_simplex x = 1 := by
    ext k j
    rw [Matrix.mul_apply, Matrix.one_apply]
    have hg : ∀ t, M k t * tight_simplex x t j
        = 1 / s * (s * ((if k = t then (1 : ℝ) else 0) * (if t = j then 1 else 0))
            + (if k = t then (1 : ℝ) else 0) * w j
            - s * (w t * (if t = j then (1 : ℝ) else 0))
            - w t * w j) := by
      intro t
      rw [hentry t j, hMdef]
      simp only [Matrix.of_apply]
      ring
    rw [Finset.sum_congr rfl fun t _ => hg t, ← Finset.mul_sum,
      Finset.sum_sub_distrib, Finset.sum_sub_distrib, Finset.sum_add_distrib,
      ← Finset.mul_sum, ← Finset.mul_sum, sum_delta_mul_delta k j,
      sum_delta_mul k fun _ => w j, sum_mul_delta j w, ← Finset.sum_mul, hwsum]
    generalize (if k = j then (1 : ℝ) else 0) = b
    field_simp
    ring
  exact ⟨⟨tight_simplex x, M, hVM, hMV⟩, rfl⟩

/-- Witness for the amended C10: the two-point compositional cloud with
points (1,0) and (0,1). -/
theorem tight_simplex_nonsingular_witness :
    IsUnit (tight_simplex fun i : Fin 2 => fun j : Fin 2 =>
      if i = j then (1 : ℝ) else 0) :=
  tight_simplex_nonsingular 1 1 _
    (fun i => by rw [Fin.sum_univ_two]; fin_cases i <;> norm_num)
    ⟨0, 0, by simp [centroid, Fin.sum_univ_two]⟩

/-- Counterexample for C10 as stated: a valid compositional cloud
concentrated at a single point yields a singular vertex matrix, so
barycentric coordinates cannot be computed through the matrix inverse
there. -/
theorem tight_simplex_singular_counterexample :
    ¬ IsUnit (tight_simplex fun _ : Fin 1 => fun _ : Fin 2 => (1 / 2 : ℝ)) := by
  intro h
  have hdet := (Matrix.isUnit_iff_isUnit_det _).mp h
  have hcen : centroid (fun _ : Fin 1 => fun _ : Fin 2 => (1 / 2 : ℝ))
      = fun _ : Fin 2 => (1 / 2 : ℝ) := by
    funext j
    simp [centroid]
  have hmsz : maxShift (fun _ : Fin 1 => fun _ : Fin 2 => (1 / 2 : ℝ)) = 0 := by
    rw [maxShift]
    have hfun : (fun p : Fin 1 × Fin 2 =>
        centroid (fun _ : Fin 1 => fun _ : Fin 2 => (1 / 2 : ℝ)) p.2
          - (fun _ : Fin 1 => fun _ : Fin 2 => (1 / 2 : ℝ)) p.1 p.2)
        = fun _ => (0 : ℝ) := by
      funext p
      rw [hcen]
      norm_num
    rw [hfun]
    exact Finset.sup'_const _ 0
  have hV : tight_simplex (fun _ : Fin 1 => fun _ : Fin 2 => (1 / 2 : ℝ))
      = Matrix.of fun _ _ => (1 / 2 : ℝ) := by
    ext i j
    simp only [tight_simplex, Matrix.of_apply, simplexScale, hmsz, mul_zero,
      zero_mul, add_zero, hcen]
  rw [hV, Matrix.det_fin_two] at hdet
  simp only [Matrix.of_apply] at hdet
  norm_num at hdet

/-- Summing a function against a Kronecker delta whose fixed index comes
first. -/
theorem sum_mul_delta_left {D : ℕ} (i : Fin D) (g : Fin D → ℝ) :
    ∑ k, g k * (if i = k then (1 : ℝ) else 0) = g i := by
  simp only [mul_ite, mul_one, mul_zero]
  rw [Finset.sum_ite_eq Finset.univ i g]
  simp

/-- The square of a Helmert normalising coefficient. -/
theorem hc_mul_self (k : ℕ) :
    hc k * hc k = 1 / (((k : ℝ) + 1) * ((k : ℝ) + 2)) := by
  rw [hc, div_mul_div_comm, one_mul, Real.mul_self_sqrt (by positivity)]

/-- Telescoping sum of the squared Helmert coefficients. -/
theorem hc_telescope (j : ℕ) : ∀ d, j ≤ d →
    ∑ k in Finset.Ico j d, 1 / (((k : ℝ) + 1) * ((k : ℝ) + 2))
      = 1 / ((j : ℝ) + 1) - 1 / ((d : ℝ) + 1) := by
  refine Nat.le_induction ?_ ?_
  · rw [Finset.Ico_self, Finset.sum_empty]
    ring
  · intro d hd ih
    rw [Finset.sum_Ico_succ_top hd, ih]
    have h1 : ((d : ℝ) + 1) ≠ 0 := by positivity
    have h2 : ((d : ℝ) + 2) ≠ 0 := by positivity
    push_cast
    field_simp
    ring

/-- Gram computation for the Helmert columns, ordered case `i ≤ j`: rows i
and j of the contrast matrix have inner product `δ_ij - 1/(d+1)`. -/
theorem hmat_gram_le (d i j : ℕ) (hj : j ≤ d) (hij : i ≤ j) :
    ∑ k in Finset.range d, hmat i k * hmat j k
      = (if i = j then 1 else 0) - 1 / ((d : ℝ) + 1) := by
  rcases Nat.eq_zero_or_pos j with hj0 | hjpos
  · subst hj0
    have hi0 : i = 0 := Nat.le_zero.mp hij
    subst hi0
    have hcongr : ∀ k ∈ Finset.range d,
        hmat 0 k * hmat 0 k = 1 / (((k : ℝ) + 1) * ((k : ℝ) + 2)) := by
      intro k _
      rw [hmat, if_pos (Nat.succ_pos k), hc_mul_self]
    rw [Finset.sum_congr rfl hcongr, Finset.range_eq_Ico,
      hc_telescope 0 d (Nat.zero_le d)]
    norm_num
  · obtain ⟨p, rfl⟩ : ∃ p, j = p + 1 := ⟨j - 1, (Nat.succ_pred_eq_of_pos hjpos).symm⟩
    have hpd : p < d := by omega
    rw [Finset.range_eq_Ico,
      ← Finset.sum_Ico_consecutive _ (Nat.zero_le p) (le_of_lt hpd)]
    have hzero : ∑ k in Finset.Ico 0 p, hmat i k * hmat (p + 1) k = 0 := by
      apply Finset.sum_eq_zero
      intro k hk
      have hklt : k < p := (Finset.mem_Ico.mp hk).2
      have hz : hmat (p + 1) k = 0 := by
        rw [hmat, if_neg (by omega), if_neg (by omega)]
      rw [hz, mul_zero]
    rw [hzero, zero_add, Finset.sum_eq_sum_Ico_succ_bot hpd]
    have hb2 : hmat (p + 1) p = -(((p : ℝ) + 1) * hc p) := by
      rw [hmat, if_neg (lt_irrefl _), if_pos rfl]
    have htail : ∀ k ∈ Finset.Ico (p + 1) d,
        hmat i k * hmat (p + 1) k = 1 / (((k : ℝ) + 1) * ((k : ℝ) + 2)) := by
      intro k hk
      have hk1 : p + 1 ≤ k := (Finset.mem_Ico.mp hk).1
      have hA : hmat i k = hc k := by rw [hmat, if_pos (by omega)]
      have hB : hmat (p + 1) k = hc k := by rw [hmat, if_pos (by omega)]
      rw [hA, hB, hc_mul_self]
    rw [Finset.sum_congr rfl htail, hc_telescope (p + 1) d (by omega)]
    have hp1 : ((p : ℝ) + 1) ≠ 0 := by positivity
    have hp2 : ((p : ℝ) + 2) ≠ 0 := by positivity
    have hd1 : ((d : ℝ) + 1) ≠ 0 := by positivity
    rcases Nat.lt_or_ge i (p + 1) with hilt | hige
    · have hA : hmat i p = hc p := by rw [hmat, if_pos hilt]
      have hprod : hc p * -(((p : ℝ) + 1) * hc p)
          = -(((p : ℝ) + 1) * (1 / (((p : ℝ) + 1) * ((p : ℝ) + 2)))) := by
        rw [← hc_mul_self p]
        ring
      rw [hA, hb2, hprod, if_neg (by omega : ¬ i = p + 1)]
      push_cast
      field_simp
      ring
    · have hieq : i = p + 1 := le_antisymm hij hige
      subst hieq
      have hprod : hmat (p + 1) p * hmat (p + 1) p
          = (((p : ℝ) + 1) * ((p : ℝ) + 1))
              * (1 / (((p : ℝ) + 1) * ((p : ℝ) + 2))) := by
        rw [hb2, ← hc_mul_self p]
        ring
      rw [hprod, if_pos rfl]
      push_cast
      field_simp
      ring

/-- Gram computation for the Helmert columns, general case. -/
theorem hmat_gram (d i j : ℕ) (hi : i ≤ d) (hj : j ≤ d) :
    ∑ k in Finset.range d, hmat i k * hmat j k
      = (if i = j then 1 else 0) - 1 / ((d : ℝ) + 1) := by
  rcases le_total i j with h | h
  · exact hmat_gram_le d i j hj h
  · rw [Finset.sum_congr rfl fun k _ => mul_comm (hmat i k) (hmat j k),
      hmat_gram_le d j i hi h]
    congr 1
    by_cases hij : i = j
    · simp [hij]
    · rw [if_neg hij, if_neg fun hc => hij hc.symm]

/-- The row Gram identity of the simplex transform: the rows of the
`(d+1) x d` transform matrix have pairwise inner products
`δ_ij - 1/(d+1)`. -/
theorem simplex_transform_gram (d : ℕ) (i j : Fin (d + 1)) :
    ∑ k, SimplexTransform d i k * SimplexTransform d j k
      = (if i = j then 1 else 0) - 1 / ((d : ℝ) + 1) := by
  have h := hmat_gram d i.val j.val (Fin.is_le i) (Fin.is_le j)
  rw [← Fin.sum_univ_eq_sum_range (fun k => hmat i.val k * hmat j.val k) d] at h
  have hval : (if i = j then (1 : ℝ) else 0)
      = if (i : ℕ) = (j : ℕ) then 1 else 0 := by
    by_cases hij : i = j
    · simp [hij]
    · rw [if_neg hij, if_neg fun hc => hij (Fin.ext hc)]
  rw [hval]
  exact h

/-- Every column of the Helmert contrast matrix sums to zero: the columns
lie on the zero-sum hyperplane. -/
theorem hmat_colsum (d k : ℕ) (hk : k < d) :
    ∑ i in Finset.range (d + 1), hmat i k = 0 := by
  rw [Finset.range_eq_Ico,
    ← Finset.sum_Ico_consecutive _ (Nat.zero_le (k + 2)) (by omega : k + 2 ≤ d + 1)]
  have h2 : ∑ i in Finset.Ico (k + 2) (d + 1), hmat i k = 0 := by
    apply Finset.sum_eq_zero
    intro i hi
    have := (Finset.mem_Ico.mp hi).1
    rw [hmat, if_neg (by omega), if_neg (by omega)]
  have h1 : ∑ i in Finset.Ico 0 (k + 2), hmat i k = 0 := by
    rw [← Finset.range_eq_Ico, Finset.sum_range_succ]
    have htop : hmat (k + 1) k = -(((k : ℝ) + 1) * hc k) := by
      rw [hmat, if_neg (lt_irrefl _), if_pos rfl]
    have hbody : ∀ i ∈ Finset.range (k + 1), hmat i k = hc k := by
      intro i hi
      rw [hmat, if_pos (Finset.mem_range.mp hi)]
    rw [Finset.sum_congr rfl hbody, htop, Finset.sum_const, Finset.card_range,
      nsmul_eq_mul]
    push_cast
    ring
  rw [h1, h2, add_zero]

/-- The simplex transform sends the all-ones vector to zero. -/
theorem applyST_ones (d : ℕ) :
    applyST (fun _ : Fin (d + 1) => (1 : ℝ)) = fun _ : Fin d => 0 := by
  funext k
  rw [applyST]
  simp only [one_mul]
  show ∑ i : Fin (d + 1), hmat i.val k.val = 0
  rw [Fin.sum_univ_eq_sum_range (fun m => hmat m k.val) (d + 1)]
  exact hmat_colsum d k.val k.isLt

/-- Applying the simplex transform to a canonical basis vector reads off a
row of the transform matrix. -/
theorem applyST_stdBasis {d : ℕ} (i : Fin (d + 1)) (k : Fin d) :
    applyST (stdBasis i) k = SimplexTransform d i k := by
  rw [applyST]
  simp only [stdBasis, ite_mul, one_mul, zero_mul]
  rw [Finset.sum_ite_eq' Finset.univ i fun t => SimplexTransform d t k]
  simp

/-- Claim C5: the canonical basis vectors map to points that are pairwise at
Euclidean distance sqrt 2 under the simplex transform. -/
theorem simplex_transform_vertices_sqrt_two (d : ℕ) (i j : Fin (d + 1))
    (hij : i ≠ j) :
    distance (applyST (stdBasis i)) (applyST (stdBasis j)) = Real.sqrt 2 := by
  rw [distance]
  have hterm : ∀ k : Fin d,
      (applyST (stdBasis i) k - applyST (stdBasis j) k) ^ 2
        = SimplexTransform d i k * SimplexTransform d i k
            - 2 * (SimplexTransform d i k * SimplexTransform d j k)
            + SimplexTransform d j k * SimplexTransform d j k := by
    intro k
    rw [applyST_stdBasis, applyST_stdBasis]
    ring
  rw [Finset.sum_congr rfl fun k _ => hterm k, Finset.sum_add_distrib,
    Finset.sum_sub_distrib, ← Finset.mul_sum, simplex_transform_gram d i i,
    simplex_transform_gram d i j, simplex_transform_gram d j j,
    if_pos rfl, if_pos rfl, if_neg hij]
  congr 1
  ring

/-- Witness for C5: the first two vertices in ambient dimension 4. -/
theorem simplex_transform_vertices_sqrt_two_witness :
    distance (applyST (stdBasis (0 : Fin 4))) (applyST (stdBasis (1 : Fin 4)))
      = Real.sqrt 2 :=
  simplex_transform_vertices_sqrt_two 3 0 1 (by decide)

/-- Expansion of the image's squared norm through the row Gram identity:
the transform contracts squared distances by exactly the squared coordinate
sum divided by the ambient dimension. -/
theorem applyST_sq_sum (d : ℕ) (z : Fin (d + 1) → ℝ) :
    ∑ k, (∑ i, z i * SimplexTransform d i k) ^ 2
      = ∑ i, z i ^ 2 - (∑ i, z i) ^ 2 / ((d : ℝ) + 1) := by
  have step1 : ∀ k : Fin d, (∑ i, z i * SimplexTransform d i k) ^ 2
      = ∑ i, ∑ j, z i * z j
          * (SimplexTransform d i k * SimplexTransform d j k) := by
    intro k
    rw [sq, Finset.sum_mul_sum]
    exact Finset.sum_congr rfl fun i _ => Finset.sum_congr rfl fun j _ => by ring
  rw [Finset.sum_congr rfl fun k _ => step1 k, Finset.sum_comm,
    Finset.sum_congr rfl fun i _ => Finset.sum_comm]
  have step2 : ∀ i j : Fin (d + 1),
      ∑ k : Fin d, z i * z j
          * (SimplexTransform d i k * SimplexTransform d j k)
        = z i * z j * (if i = j then (1 : ℝ) else 0)
            - z i * z j * (1 / ((d : ℝ) + 1)) := by
    intro i j
    rw [← Finset.mul_sum, simplex_transform_gram]
    ring
  rw [Finset.sum_congr rfl fun i _ => Finset.sum_congr rfl fun j _ => step2 i j,
    Finset.sum_congr rfl fun i _ => Finset.sum_sub_distrib, Finset.sum_sub_distrib]
  have hfirst : ∀ i : Fin (d + 1),
      ∑ j, z i * z j * (if i = j then (1 : ℝ) else 0) = z i ^ 2 := by
    intro i
    rw [sum_mul_delta_left i fun j => z i * z j, sq]
  have hsecond : ∀ i : Fin (d + 1),
      ∑ j, z i * z j * (1 / ((d : ℝ) + 1))
        = z i * (1 / ((d : ℝ) + 1)) * ∑ j, z j := by
    intro i
    rw [Finset.mul_sum]
    exact Finset.sum_congr rfl fun j _ => by ring
  rw [Finset.sum_congr rfl fun i _ => hfirst i,
    Finset.sum_congr rfl fun i _ => hsecond i, ← Finset.sum_mul, ← Finset.sum_mul]
  ring

/-- Claim C4 (amended): the simplex transform preserves the Euclidean
distance of any two inputs with equal coordinate sums, i.e. of any two
points whose difference lies on the zero-sum hyperplane. -/
theorem simplex_transform_isometry (d : ℕ) (x y : Fin (d + 1) → ℝ)
    (h : ∑ i, x i = ∑ i, y i) :
    distance (applyST x) (applyST y) = distance x y := by
  rw [distance, distance]
  congr 1
  have hdiff : ∀ k, applyST x k - applyST y k
      = ∑ i, (x i - y i) * SimplexTransform d i k := by
    intro k
    rw [applyST, applyST, ← Finset.sum_sub_distrib]
    exact Finset.sum_congr rfl fun i _ => by ring
  rw [Finset.sum_congr rfl fun k _ => by rw [hdiff k], applyST_sq_sum d fun i => x i - y i]
  have hz : ∑ i, (x i - y i) = 0 := by
    rw [Finset.sum_sub_distrib, h, sub_self]
  rw [hz]
  norm_num

/-- Witness for the amended C4: two points of the unit simplex in ambient
dimension 4 (equal coordinate sums). -/
theorem simplex_transform_isometry_witness :
    distance (applyST (stdBasis (0 : Fin 4))) (applyST (stdBasis (2 : Fin 4)))
      = distance (stdBasis (0 : Fin 4)) (stdBasis (2 : Fin 4)) :=
  simplex_transform_isometry 3 (stdBasis 0) (stdBasis 2)
    (by simp [stdBasis, Fin.sum_univ_four])

/-- Counterexample for C4 as stated: the transform does not preserve the
distance of arbitrary input pairs; the zero vector and the all-ones vector
collapse to the same image although their distance is 2. -/
theorem simplex_transform_not_global_isometry :
    ¬ distance (applyST fun _ : Fin 4 => (0 : ℝ)) (applyST fun _ : Fin 4 => (1 : ℝ))
        = distance (fun _ : Fin 4 => (0 : ℝ)) (fun _ : Fin 4 => (1 : ℝ)) := by
  intro h
  have h1 : applyST (fun _ : Fin 4 => (0 : ℝ)) = fun _ : Fin 3 => (0 : ℝ) := by
    funext k
    rw [applyST]
    simp
  have h2 : applyST (fun _ : Fin 4 => (1 : ℝ)) = fun _ : Fin 3 => (0 : ℝ) :=
    applyST_ones 3
  rw [h1, h2, distance, distance] at h
  simp only [sub_self, ne_eq, OfNat.ofNat_ne_zero, not_false_eq_true, zero_pow,
    Finset.sum_const_zero, Real.sqrt_zero] at h
  have h4 : ∑ i : Fin 4, ((0 : ℝ) - 1) ^ 2 = 4 := by
    rw [Fin.sum_univ_four]
    norm_num
  rw [h4] at h
  have : Real.sqrt 4 = 2 := by
    rw [show (4 : ℝ) = 2 ^ 2 by norm_num, Real.sqrt_sq (by norm_num : (0 : ℝ) ≤ 2)]
  rw [this] at h
  norm_num at h

/-- Claim C8 (amended): for a composition with at least one zero and at
least one non-zero component, multiplicative replacement with the default
pseudo-count returns a vector that sums to 1 exactly, differs from the input
entrywise by at most `n_zeros * delta`, and is entrywise strictly
positive. -/
theorem multiplicative_replacement_props (d : ℕ) (x : Fin (d + 1) → ℝ)
    (hnn : ∀ i, 0 ≤ x i) (hsum : ∑ i, x i = 1)
    (hz : ∃ i, x i = 0) (hp : ∃ i, x i ≠ 0) :
    (∑ i, multiplicative_replacement x (defaultDelta (d + 1)) i = 1) ∧
      (∀ i, |multiplicative_replacement x (defaultDelta (d + 1)) i - x i|
          ≤ (nZeros x : ℝ) * defaultDelta (d + 1)) ∧
      ∀ i, 0 < multiplicative_replacement x (defaultDelta (d + 1)) i := by
  have hD : ((d + 1 : ℕ) : ℝ) = (d : ℝ) + 1 := by push_cast; ring
  have hδval : defaultDelta (d + 1) = 1 / ((d : ℝ) + 1) ^ 2 := by
    rw [defaultDelta, hD]
  have hδpos : 0 < defaultDelta (d + 1) := by
    rw [hδval]
    positivity
  have hzlt : nZeros x < d + 1 := by
    rcases hp with ⟨i0, hi0⟩
    rw [nZeros]
    rcases lt_or_eq_of_le (Finset.card_le_univ (Finset.univ.filter fun i => x i = 0))
      with h | h
    · rwa [Fintype.card_fin] at h
    · exfalso
      have huniv : (Finset.univ.filter fun i => x i = 0) = Finset.univ :=
        Finset.eq_univ_of_card _ h
      have hmem : i0 ∈ Finset.univ.filter fun i => x i = 0 := by
        rw [huniv]
        exact Finset.mem_univ i0
      exact hi0 (Finset.mem_filter.mp hmem).2
  have hzr : (nZeros x : ℝ) ≤ (d : ℝ) := by
    exact_mod_cast Nat.lt_succ_iff.mp hzlt
  have hznn : (0 : ℝ) ≤ (nZeros x : ℝ) := Nat.cast_nonneg _
  have hscale : 0 < 1 - (nZeros x : ℝ) * defaultDelta (d + 1) := by
    have hb : (nZeros x : ℝ) * defaultDelta (d + 1) ≤ (d : ℝ) * defaultDelta (d + 1) :=
      mul_le_mul_of_nonneg_right hzr (le_of_lt hδpos)
    have hlt : (d : ℝ) * defaultDelta (d + 1) < 1 := by
      rw [hδval, mul_one_div, div_lt_one (by positivity)]
      nlinarith [sq_nonneg ((d : ℝ))]
    linarith
  have hz1 : (1 : ℝ) ≤ (nZeros x : ℝ) := by
    rcases hz with ⟨i1, hi1⟩
    have : 0 < nZeros x := Finset.card_pos.mpr
      ⟨i1, Finset.mem_filter.mpr ⟨Finset.mem_univ i1, hi1⟩⟩
    exact_mod_cast this
  refine ⟨?_, ?_, ?_⟩
  · rw [← Finset.sum_filter_add_sum_filter_not Finset.univ (fun i => x i = 0)
      (multiplicative_replacement x (defaultDelta (d + 1)))]
    have hA : ∑ i in Finset.univ.filter fun i => x i = 0,
        multiplicative_replacement x (defaultDelta (d + 1)) i
          = (nZeros x : ℝ) * defaultDelta (d + 1) := by
      rw [Finset.sum_congr rfl fun i hi => ?_]
      · rw [Finset.sum_const, nsmul_eq_mul, nZeros]
      · rw [multiplicative_replacement, if_pos (Finset.mem_filter.mp hi).2]
    have hBx : ∑ i in Finset.univ.filter fun i => ¬ x i = 0, x i = 1 := by
      have hsplit := Finset.sum_filter_add_sum_filter_not Finset.univ
        (fun i => x i = 0) x
      have h0 : ∑ i in Finset.univ.filter fun i => x i = 0, x i = 0 :=
        Finset.sum_eq_zero fun i hi => (Finset.mem_filter.mp hi).2
      rw [h0, zero_add, hsum] at hsplit
      exact hsplit
    have hB : ∑ i in Finset.univ.filter fun i => ¬ x i = 0,
        multiplicative_replacement x (defaultDelta (d + 1)) i
          = 1 - (nZeros x : ℝ) * defaultDelta (d + 1) := by
      rw [Finset.sum_congr rfl fun i hi => ?_]
      · rw [← Finset.sum_mul, hBx, one_mul]
      · rw [multiplicative_replacement, if_neg (Finset.mem_filter.mp hi).2]
    rw [hA, hB]
    ring
  · intro i
    by_cases hx0 : x i = 0
    · have hu : multiplicative_replacement x (defaultDelta (d + 1)) i
          = defaultDelta (d + 1) := by
        rw [multiplicative_replacement, if_pos hx0]
      rw [hu, hx0, sub_zero, abs_of_pos hδpos]
      exact le_mul_of_one_le_left (le_of_lt hδpos) hz1
    · have hu : multiplicative_replacement x (defaultDelta (d + 1)) i - x i
          = -(x i * ((nZeros x : ℝ) * defaultDelta (d + 1))) := by
        rw [multiplicative_replacement, if_neg hx0]
        ring
      have hxle : x i ≤ 1 := by
        rw [← hsum]
        exact Finset.single_le_sum (fun j _ => hnn j) (Finset.mem_univ i)
      rw [hu, abs_neg,
        abs_of_nonneg (mul_nonneg (hnn i) (mul_nonneg hznn (le_of_lt hδpos)))]
      exact mul_le_of_le_one_left (mul_nonneg hznn (le_of_lt hδpos)) hxle
  · intro i
    by_cases hx0 : x i = 0
    · rw [multiplicative_replacement, if_pos hx0]
      exact hδpos
    · rw [multiplicative_replacement, if_neg hx0]
      exact mul_pos (lt_of_le_of_ne (hnn i) (Ne.symm hx0)) hscale

/-- Witness for the amended C8: the two-component composition (0, 1). -/
theorem multiplicative_replacement_props_witness :
    (∑ i, multiplicative_replacement (stdBasis (1 : Fin 2)) (defaultDelta 2) i = 1) ∧
      (∀ i, |multiplicative_replacement (stdBasis (1 : Fin 2)) (defaultDelta 2) i
          - stdBasis (1 : Fin 2) i|
          ≤ (nZeros (stdBasis (1 : Fin 2)) : ℝ) * defaultDelta 2) ∧
      ∀ i, 0 < multiplicative_replacement (stdBasis (1 : Fin 2)) (defaultDelta 2) i :=
  multiplicative_replacement_props 1 (stdBasis 1)
    (fun i => by rw [stdBasis]; split <;> norm_num)
    (by rw [Fin.sum_univ_two, stdBasis, stdBasis]; norm_num)
    ⟨0, by rw [stdBasis]; norm_num⟩
    ⟨1, by rw [stdBasis]; norm_num⟩

/-- Counterexample for C8 as stated: at dimension 2 the default pseudo-count
is 1/4, so the output differs from the input by 1/4 at the replaced zero,
far beyond an absolute tolerance of 1e-2. -/
theorem multiplicative_replacement_perturbation_counterexample :
    ¬ ∀ i, |multiplicative_replacement (stdBasis (1 : Fin 2)) (defaultDelta 2) i
        - stdBasis (1 : Fin 2) i| ≤ 1 / 100 := by
  intro h
  have h0 := h 0
  have hx0 : stdBasis (1 : Fin 2) 0 = 0 := by rw [stdBasis]; norm_num
  have hu : multiplicative_replacement (stdBasis (1 : Fin 2)) (defaultDelta 2) 0
      = defaultDelta 2 := by
    rw [multiplicative_replacement, if_pos hx0]
  have hδ : defaultDelta 2 = 1 / 4 := by rw [defaultDelta]; norm_num
  rw [hu, hx0, hδ, sub_zero,
    abs_of_pos (by norm_num : (0 : ℝ) < 1 / 4)] at h0
  norm_num at h0

/-- Claim C9: the centre-of-mass entry points fail exactly as the error
taxonomy prescribes: a non-numeric weight index or non-numeric weight data
gives the InvalidArgument kind, a weight index beyond the available columns
gives the OutOfRange kind, non-alignable coordinate and weight arrays give
the ShapeMismatch kind, and a valid call does not error. -/
theorem center_of_mass_error_taxonomy :
    (∀ m : List (List ℚ),
        center_of_mass_one_array m .nonNumeric = .error .typeError) ∧
      (∀ (m : List (List ℚ)) (i : ℤ), ¬ validIdx (ncols m) i →
        center_of_mass_one_array m (.idx i) = .error .indexError) ∧
      (∀ coords : List (List ℚ),
        center_of_mass_two_array coords .nonNumeric = .error .typeError) ∧
      (∀ (coords : List (List ℚ)) (w : List ℚ), w.length ≠ coords.length →
        center_of_mass_two_array coords (.nums w) = .error .valueError) ∧
      ∀ (m : List (List ℚ)) (i : ℤ), validIdx (ncols m) i →
        ∃ v, center_of_mass_one_array m (.idx i) = .ok v := by
  refine ⟨fun m => rfl, ?_, fun c => rfl, ?_, ?_⟩
  · intro m i hcond
    rw [center_of_mass_one_array, if_neg hcond]
  · intro coords w hne
    rw [center_of_mass_two_array, if_neg hne]
  · intro m i hcond
    rw [center_of_mass_one_array, if_pos hcond, center_of_mass_two_array,
      if_pos (by rw [List.length_map, List.length_map])]
    exact ⟨_, rfl⟩

/-- Witness for C9: the taxonomy on the concrete inputs of the test suite
(the 3 x 3 matrix, a string weight index, index 100, misaligned weights, and
the default index -1). -/
theorem center_of_mass_error_taxonomy_witness :
    center_of_mass_one_array [[1, 1, 1], [3, 1, 1], [2, 3, 2]] .nonNumeric
        = .error .typeError ∧
      center_of_mass_one_array [[1, 1, 1], [3, 1, 1], [2, 3, 2]] (.idx 100)
        = .error .indexError ∧
      center_of_mass_two_array [[1, 1], [3, 1], [2, 3]] .nonNumeric
        = .error .typeError ∧
      center_of_mass_two_array [[1, 1], [3, 1], [2, 3]] (.nums [1, 2])
        = .error .valueError ∧
      ∃ v, center_of_mass_one_array [[1, 1, 1], [3, 1, 1], [2, 3, 2]] (.idx (-1))
        = .ok v :=
  ⟨center_of_mass_error_taxonomy.1 _,
    center_of_mass_error_taxonomy.2.1 _ 100 (by decide),
    center_of_mass_error_taxonomy.2.2.1 _,
    center_of_mass_error_taxonomy.2.2.2.1 _ [1, 2] (by decide),
    center_of_mass_error_taxonomy.2.2.2.2 _ (-1) (by decide)⟩
